import Mathlib

/-!
Verification of the hippocampus RAG backend against its specification.

Each section shallowly embeds one component of the source tree and proves
the spec's testable properties about it:

* evaluator metrics (`calculateHit`, `calculateRecall`, `calculateReciprocalRank`)
* the greedy embedding batcher (`createOptimizedBatches`, `shouldStartNewBatch`)
  and the order-restoring `generateEmbedding` pipeline
* content-addressed chunk ids (`generateContentId`, `QdrantStorage.save`)
* the feedback store (`FeedbackService.addFeedback`) and feedback fusion
* the linear-projection adapter (`transform`, `transformQuery`)
* the feedback worker (`processFeedback`) over a modelled vector index
* the semantic chunker's grouping pass (`groupSentencesIntoChunks`)

Machine reals (IEEE doubles) are modelled by `ℝ` where the code computes
norms and cosines, and by `ℚ` where the code only compares ratios of
integer quantities.  External fallible calls are modelled by `Option`,
thrown exceptions by `Except`.
-/

namespace Hippocampus

/-! ## Evaluator metrics (src: eval service, `calculateHit` / `calculateRecall` /
`calculateReciprocalRank`) -/

/-- `calculateHit(expectedIds, retrievedIds)`:
`expectedIds.some(id => retrievedIds.includes(id))`. -/
def calculateHit (expectedIds retrievedIds : List String) : Bool :=
  expectedIds.any (fun id => retrievedIds.contains id)

/-- `calculateRecall(expectedIds, retrievedIds)`: `0` when `expectedIds` is
empty, else the number of expected ids present in `retrievedIds` divided by
`expectedIds.length`. -/
def calculateRecall (expectedIds retrievedIds : List String) : ℚ :=
  if expectedIds.length = 0 then 0
  else ((expectedIds.filter (fun id => retrievedIds.contains id)).length : ℚ) /
    (expectedIds.length : ℚ)

/-- The loop of `calculateReciprocalRank`: scan `retrievedIds` left to right
carrying the 0-based position `i`; on the first retrieved id contained in
`expectedIds` return `1 / (i + 1)`; return `0` when the scan ends. -/
def reciprocalRankAux (expectedIds : List String) : List String → ℕ → ℚ
  | [], _ => 0
  | r :: rest, i =>
    if expectedIds.contains r then 1 / ((i : ℚ) + 1)
    else reciprocalRankAux expectedIds rest (i + 1)

/-- `calculateReciprocalRank(expectedIds, retrievedIds)`. -/
def calculateReciprocalRank (expectedIds retrievedIds : List String) : ℚ :=
  reciprocalRankAux expectedIds retrievedIds 0

theorem reciprocalRankAux_cases (e r : List String) (i : ℕ) :
    reciprocalRankAux e r i = 0 ∨
      ∃ k : ℕ, k < r.length ∧ reciprocalRankAux e r i = 1 / ((i : ℚ) + (k : ℚ) + 1) := by
  induction r generalizing i with
  | nil => exact Or.inl rfl
  | cons x rest ih =>
    by_cases hx : e.contains x
    · refine Or.inr ⟨0, by simp, ?_⟩
      simp only [reciprocalRankAux, if_pos hx]
      norm_num
    · rcases ih (i + 1) with h0 | ⟨k, hk, hval⟩
      · refine Or.inl ?_
        simp only [reciprocalRankAux, if_neg hx]
        exact h0
      · refine Or.inr ⟨k + 1, by simpa using Nat.succ_lt_succ hk, ?_⟩
        simp only [reciprocalRankAux, if_neg hx]
        rw [hval]
        push_cast
        ring_nf

theorem reciprocalRankAux_pos_iff (e r : List String) (i : ℕ) :
    0 < reciprocalRankAux e r i ↔ ∃ y ∈ r, y ∈ e := by
  induction r generalizing i with
  | nil => simp [reciprocalRankAux]
  | cons x rest ih =>
    by_cases hx : e.contains x
    · have hx' : x ∈ e := by simpa using hx
      have hpos : (0 : ℚ) < 1 / ((i : ℚ) + 1) := by positivity
      simp only [reciprocalRankAux, if_pos hx]
      exact ⟨fun _ => ⟨x, List.mem_cons_self x rest, hx'⟩, fun _ => hpos⟩
    · have hx' : x ∉ e := by simpa using hx
      simp only [reciprocalRankAux, if_neg hx]
      rw [ih (i + 1)]
      constructor
      · rintro ⟨y, hy, hye⟩
        exact ⟨y, List.mem_cons_of_mem x hy, hye⟩
      · rintro ⟨y, hy, hye⟩
        rcases List.mem_cons.mp hy with rfl | hy'
        · exact absurd hye hx'
        · exact ⟨y, hy', hye⟩

theorem calculateRecall_eq_inter (e r : List String) :
    calculateRecall e r = ((e.inter r).length : ℚ) / (e.length : ℚ) := by
  have hfilter : e.filter (fun id => r.contains id) = e.inter r := by
    rw [List.inter]
  rw [calculateRecall]
  split
  · rename_i he
    rw [List.length_eq_zero] at he
    subst he
    simp [List.inter]
  · rw [hfilter]

/-- C9: `calculateReciprocalRank` returns `0` or `1/k` for some 1-indexed
position `k ≤ K` in the retrieved list; `calculateRecall` equals
`|expected ∩ retrieved| / |expected|` and lies in `[0, 1]`; and
`calculateHit` is true exactly when the reciprocal rank is positive. -/
theorem eval_metrics_sound (expectedIds retrievedIds : List String) :
    (calculateReciprocalRank expectedIds retrievedIds = 0 ∨
      ∃ k : ℕ, 1 ≤ k ∧ k ≤ retrievedIds.length ∧
        calculateReciprocalRank expectedIds retrievedIds = 1 / (k : ℚ)) ∧
    calculateRecall expectedIds retrievedIds =
      ((expectedIds.inter retrievedIds).length : ℚ) / (expectedIds.length : ℚ) ∧
    0 ≤ calculateRecall expectedIds retrievedIds ∧
    calculateRecall expectedIds retrievedIds ≤ 1 ∧
    (calculateHit expectedIds retrievedIds = true ↔
      0 < calculateReciprocalRank expectedIds retrievedIds) := by
  refine ⟨?_, calculateRecall_eq_inter _ _, ?_, ?_, ?_⟩
  · rcases reciprocalRankAux_cases expectedIds retrievedIds 0 with h0 | ⟨k, hk, hval⟩
    · exact Or.inl h0
    · refine Or.inr ⟨k + 1, Nat.le_add_left 1 k, Nat.succ_le_of_lt hk, ?_⟩
      rw [calculateReciprocalRank, hval]
      push_cast
      ring_nf
  · rw [calculateRecall]
    split
    · exact le_refl 0
    · positivity
  · rw [calculateRecall]
    split
    · exact zero_le_one
    · rename_i he
      have hle : (expectedIds.filter (fun id => retrievedIds.contains id)).length ≤
          expectedIds.length := List.length_filter_le _ _
      have hpos : (0 : ℚ) < (expectedIds.length : ℚ) := by
        exact_mod_cast Nat.pos_of_ne_zero he
      rw [div_le_one hpos]
      exact_mod_cast hle
  · rw [calculateReciprocalRank, reciprocalRankAux_pos_iff]
    constructor
    · intro h
      rcases List.any_eq_true.mp h with ⟨x, hx, hxr⟩
      exact ⟨x, by simpa using hxr, hx⟩
    · rintro ⟨y, hy, hye⟩
      exact List.any_eq_true.mpr ⟨y, hye, by simpa using hy⟩

/-! ## Batched embedding client (src: fast-embed encoder, `generateEmbedding`,
`createOptimizedBatches`, `shouldStartNewBatch`) -/

/-- An input text tagged with its original position, as built by
`texts.map((text, index) => ({text, originalIndex: index, length: text.length}))`. -/
structure IndexedText where
  text : String
  originalIndex : ℕ
  length : ℕ
deriving DecidableEq, Inhabited

/-- `CONFIG.MAX_BATCH_SIZE`. -/
def maxBatchSize : ℕ := 50

/-- `CONFIG.MAX_WASTE_RATIO` (the float literal `0.10`, modelled exactly). -/
def maxWasteRatio : ℚ := 1 / 10

/-- `shouldStartNewBatch(currentBatch, newItem)`: split when the batch is
already at `MAX_BATCH_SIZE`, or when the padding waste ratio of the batch
with `newItem` added would exceed `MAX_WASTE_RATIO`.  `batchMaxLen` is the
length of the batch's first item (`currentBatch[0]`). -/
def shouldStartNewBatch (currentBatch : List IndexedText) (newItem : IndexedText) : Bool :=
  if maxBatchSize ≤ currentBatch.length then true
  else
    let batchMaxLen := currentBatch.headI.length
    let potentialSize := currentBatch.length + 1
    let totalMatrixArea := batchMaxLen * potentialSize
    let currentSum := (currentBatch.map (·.length)).sum
    let actualTokens := currentSum + newItem.length
    let wasteRatio : ℚ := ((totalMatrixArea : ℚ) - (actualTokens : ℚ)) / (totalMatrixArea : ℚ)
    decide (maxWasteRatio < wasteRatio)

/-- The loop of `createOptimizedBatches`: greedily pack items in order,
starting a fresh batch whenever `shouldStartNewBatch` fires, and flush the
trailing non-empty batch at the end. -/
def createOptimizedBatchesAux (batches : List (List IndexedText))
    (currentBatch : List IndexedText) : List IndexedText → List (List IndexedText)
  | [] => if currentBatch.isEmpty then batches else batches ++ [currentBatch]
  | item :: rest =>
    if currentBatch.isEmpty then
      createOptimizedBatchesAux batches [item] rest
    else if shouldStartNewBatch currentBatch item then
      createOptimizedBatchesAux (batches ++ [currentBatch]) [item] rest
    else
      createOptimizedBatchesAux batches (currentBatch ++ [item]) rest

/-- `createOptimizedBatches(sortedItems)`. -/
def createOptimizedBatches (sortedItems : List IndexedText) : List (List IndexedText) :=
  createOptimizedBatchesAux [] [] sortedItems

/-- The sort step of `generateEmbedding`:
`.sort((a, b) => b.length - a.length)` — stable, by length descending. -/
def sortByLengthDesc (items : List IndexedText) : List IndexedText :=
  items.mergeSort (fun a b => b.length ≤ a.length)

/-- The indexing step of `generateEmbedding`:
`texts.map((text, index) => ({text, originalIndex: index, length: text.length}))`. -/
def indexTexts (texts : List String) : List IndexedText :=
  texts.enum.map (fun p => ⟨p.2, p.1, p.2.length⟩)

/-- Padding waste ratio of a finished batch, with `maxLen` the length of the
batch's first item: `(maxLen * size - Σ lengths) / (maxLen * size)`. -/
def batchWasteRatio (b : List IndexedText) : ℚ :=
  let area := b.headI.length * b.length
  let tot : ℕ := (b.map (·.length)).sum
  ((area : ℚ) - (tot : ℚ)) / (area : ℚ)

/-- Waste ratio tested by `shouldStartNewBatch` for `currentBatch` plus
`newItem`. -/
def candidateWasteRatio (currentBatch : List IndexedText) (newItem : IndexedText) : ℚ :=
  let totalMatrixArea := currentBatch.headI.length * (currentBatch.length + 1)
  ((totalMatrixArea : ℚ) - (((currentBatch.map (·.length)).sum + newItem.length : ℕ) : ℚ)) /
    (totalMatrixArea : ℚ)

theorem shouldStartNewBatch_iff (currentBatch : List IndexedText) (newItem : IndexedText) :
    shouldStartNewBatch currentBatch newItem = true ↔
      maxBatchSize ≤ currentBatch.length ∨
        maxWasteRatio < candidateWasteRatio currentBatch newItem := by
  rw [shouldStartNewBatch, candidateWasteRatio]
  by_cases h : maxBatchSize ≤ currentBatch.length
  · simp [h]
  · simp only [if_neg h]
    push_cast
    simp [h]

/-- A finished batch appended with one more item has exactly the waste ratio
that `shouldStartNewBatch` tested for that addition. -/
theorem batchWasteRatio_append (b : List IndexedText) (it : IndexedText) (hb : b ≠ []) :
    batchWasteRatio (b ++ [it]) = candidateWasteRatio b it := by
  rw [batchWasteRatio, candidateWasteRatio]
  have hhead : (b ++ [it]).headI = b.headI := by
    cases b with
    | nil => exact absurd rfl hb
    | cons x xs => rfl
  have hlen : (b ++ [it]).length = b.length + 1 := by simp
  have hsum : ((b ++ [it]).map (·.length)).sum = (b.map (·.length)).sum + it.length := by
    simp
  rw [hhead, hlen, hsum]

/-- `batchOk b`: the batch bounds of the spec — at most `MAX_BATCH_SIZE`
items and padding waste ratio at most `MAX_WASTE_RATIO`. -/
def batchOk (b : List IndexedText) : Prop :=
  b ≠ [] ∧ b.length ≤ maxBatchSize ∧ batchWasteRatio b ≤ maxWasteRatio

theorem batchOk_singleton (it : IndexedText) : batchOk [it] := by
  refine ⟨by simp, by simp [maxBatchSize], ?_⟩
  rw [batchWasteRatio]
  simp only [List.headI, List.length_cons, List.length_nil, List.map_cons, List.map_nil,
    List.sum_cons, List.sum_nil]
  have : ((it.length * (0 + 1) : ℕ) : ℚ) - ((it.length + 0 : ℕ) : ℚ) = 0 := by
    push_cast
    ring
  rw [this, zero_div]
  norm_num [maxWasteRatio]

theorem batchOk_append (b : List IndexedText) (it : IndexedText) (hb : batchOk b)
    (hs : shouldStartNewBatch b it = false) : batchOk (b ++ [it]) := by
  obtain ⟨hne, hlen, _⟩ := hb
  have hiff := shouldStartNewBatch_iff b it
  rw [hs] at hiff
  have hnot : ¬(maxBatchSize ≤ b.length ∨ maxWasteRatio < candidateWasteRatio b it) := by
    intro h
    exact absurd (hiff.mpr h) (by simp)
  push_neg at hnot
  refine ⟨by simp, ?_, ?_⟩
  · have : b.length + 1 ≤ maxBatchSize := hnot.1
    simpa using this
  · rw [batchWasteRatio_append b it hne]
    exact hnot.2

theorem createOptimizedBatchesAux_ok (items : List IndexedText)
    (batches : List (List IndexedText)) (cur : List IndexedText)
    (hb : ∀ b ∈ batches, batchOk b) (hc : cur = [] ∨ batchOk cur) :
    ∀ b ∈ createOptimizedBatchesAux batches cur items, batchOk b := by
  induction items generalizing batches cur with
  | nil =>
    intro b hmem
    rw [createOptimizedBatchesAux] at hmem
    rcases hc with rfl | hok
    · simp only [List.isEmpty_nil, if_true] at hmem
      exact hb b hmem
    · have hne : ¬cur.isEmpty := by
        simp [List.isEmpty_iff]
        exact hok.1
      simp only [if_neg hne] at hmem
      rcases List.mem_append.mp hmem with h | h
      · exact hb b h
      · rw [List.mem_singleton.mp h]
        exact hok
  | cons item rest ih =>
    intro b hmem
    rw [createOptimizedBatchesAux] at hmem
    rcases hc with rfl | hok
    · simp only [List.isEmpty_nil, if_true] at hmem
      exact ih batches [item] hb (Or.inr (batchOk_singleton item)) b hmem
    · have hne : ¬cur.isEmpty := by
        simp [List.isEmpty_iff]
        exact hok.1
      simp only [if_neg hne] at hmem
      by_cases hs : shouldStartNewBatch cur item
      · rw [if_pos hs] at hmem
        refine ih (batches ++ [cur]) [item] ?_ (Or.inr (batchOk_singleton item)) b hmem
        intro b' hb'
        rcases List.mem_append.mp hb' with h | h
        · exact hb b' h
        · rw [List.mem_singleton.mp h]
          exact hok
      · rw [if_neg hs] at hmem
        exact ih batches (cur ++ [item])
          hb (Or.inr (batchOk_append cur item hok (by simpa using hs))) b hmem

/-- Flattening the produced batches gives back the input item list, in order. -/
theorem createOptimizedBatchesAux_flatten (items : List IndexedText)
    (batches : List (List IndexedText)) (cur : List IndexedText) :
    (createOptimizedBatchesAux batches cur items).flatten = batches.flatten ++ cur ++ items := by
  induction items generalizing batches cur with
  | nil =>
    rw [createOptimizedBatchesAux]
    by_cases hc : cur.isEmpty
    · rw [if_pos hc, List.isEmpty_iff.mp hc]
      simp
    · rw [if_neg hc]
      simp
  | cons item rest ih =>
    rw [createOptimizedBatchesAux]
    by_cases hc : cur.isEmpty
    · rw [if_pos hc, ih, List.isEmpty_iff.mp hc]
      simp
    · rw [if_neg hc]
      by_cases hs : shouldStartNewBatch cur item
      · rw [if_pos hs, ih]
        simp
      · rw [if_neg hs, ih]
        simp

theorem createOptimizedBatches_flatten (items : List IndexedText) :
    (createOptimizedBatches items).flatten = items := by
  rw [createOptimizedBatches, createOptimizedBatchesAux_flatten]
  simp

/-- The sorted item list is pairwise length-descending. -/
theorem sortByLengthDesc_sorted (items : List IndexedText) :
    (sortByLengthDesc items).Pairwise (fun a b => b.length ≤ a.length) := by
  have h := @List.sorted_mergeSort IndexedText
    (fun a b : IndexedText => decide (b.length ≤ a.length))
    (fun a b c hab hbc => by
      simp only [decide_eq_true_eq] at hab hbc ⊢
      exact le_trans hbc hab)
    (fun a b => by
      simp only [Bool.or_eq_true, decide_eq_true_eq]
      exact le_total b.length a.length)
    items
  exact h.imp (fun h => by simpa using h)

/-- C4: the greedy batcher (sort by length descending, then pack greedily)
never produces a batch of more than `MAX_BATCH_SIZE = 50` items, never
produces a batch whose padding waste ratio `(maxLen*size - Σ lengths) /
(maxLen*size)` — with `maxLen` the length of the batch's first item, which
is also the longest — exceeds `MAX_WASTE_RATIO = 0.10`, and starts a new
batch exactly when adding the next item would exceed the size limit or push
the waste ratio above `0.10`. -/
theorem batcher_respects_bounds (texts : List String) :
    ((createOptimizedBatches (sortByLengthDesc (indexTexts texts))).Forall
      (fun b => b.length ≤ maxBatchSize ∧ batchWasteRatio b ≤ maxWasteRatio ∧
        b.Forall (fun it => it.length ≤ b.headI.length))) ∧
    (∀ cur it, shouldStartNewBatch cur it = true ↔
      maxBatchSize ≤ cur.length ∨ maxWasteRatio < candidateWasteRatio cur it) := by
  refine ⟨?_, shouldStartNewBatch_iff⟩
  rw [List.forall_iff_forall_mem]
  intro b hmem
  have hok := createOptimizedBatchesAux_ok (sortByLengthDesc (indexTexts texts)) [] []
    (by intro b h; cases h) (Or.inl rfl) b hmem
  refine ⟨hok.2.1, hok.2.2, ?_⟩
  rw [List.forall_iff_forall_mem]
  have hsub : b.Sublist (sortByLengthDesc (indexTexts texts)) := by
    have := List.sublist_flatten_of_mem (l := b)
      (L := createOptimizedBatches (sortByLengthDesc (indexTexts texts))) hmem
    rwa [createOptimizedBatches_flatten] at this
  have hsorted : b.Pairwise (fun a c => c.length ≤ a.length) :=
    (sortByLengthDesc_sorted (indexTexts texts)).sublist hsub
  intro it hit
  cases b with
  | nil => cases hit
  | cons x xs =>
    rcases List.mem_cons.mp hit with rfl | h
    · exact le_refl _
    · exact (List.pairwise_cons.mp hsorted).1 it h

/-- The `embeddingsMap` built by the batch loop of `generateEmbedding`:
for each batch the model server answers one embedding per text (modelled by
the per-call server function `emb`), and `batch.forEach((item, i) =>
embeddingsMap.set(item.originalIndex, embeddings[i]))` records them keyed by
original index.  Original indices are distinct, so modelling the JS `Map` as
an association list with first-match lookup is faithful. -/
def embeddingsMap (emb : String → List ℚ) (sortedItems : List IndexedText) :
    List (ℕ × List ℚ) :=
  (createOptimizedBatches sortedItems).flatten.map
    (fun item => (item.originalIndex, emb item.text))

/-- `embeddingsMap.get(i)` as an association-list lookup. -/
def embeddingsMapGet (m : List (ℕ × List ℚ)) (i : ℕ) : Option (List ℚ) :=
  (m.find? (fun p => p.1 = i)).map (fun p => p.2)

/-- `generateEmbedding(texts)` with the model server modelled by `emb`:
index, sort by length descending, pack into batches, fan out batch by
batch, then `texts.map((_, i) => embeddingsMap.get(i))`. -/
def generateEmbedding (emb : String → List ℚ) (texts : List String) :
    List (Option (List ℚ)) :=
  let sortedChunks := sortByLengthDesc (indexTexts texts)
  let m := embeddingsMap emb sortedChunks
  texts.enum.map (fun p => embeddingsMapGet m p.1)

theorem find?_of_nodup_keys {β : Type} (m : List (ℕ × β)) (i : ℕ) (v : β)
    (hnodup : (m.map Prod.fst).Nodup) (hmem : (i, v) ∈ m) :
    m.find? (fun p => p.1 = i) = some (i, v) := by
  induction m with
  | nil => cases hmem
  | cons a rest ih =>
    simp only [List.map_cons, List.nodup_cons] at hnodup
    by_cases ha : a.1 = i
    · have : a = (i, v) := by
        rcases List.mem_cons.mp hmem with h | h
        · exact h.symm
        · exact absurd (by simpa [ha] using List.mem_map_of_mem Prod.fst h) hnodup.1
      rw [List.find?_cons_of_pos _ (by simpa using ha), this]
    · have hmem' : (i, v) ∈ rest := by
        rcases List.mem_cons.mp hmem with h | h
        · exact absurd (congrArg Prod.fst h.symm) ha
        · exact h
      rw [List.find?_cons_of_neg _ (by simpa using ha)]
      exact ih hnodup.2 hmem'

theorem embeddingsMap_perm (emb : String → List ℚ) (texts : List String) :
    (embeddingsMap emb (sortByLengthDesc (indexTexts texts))).Perm
      (texts.enum.map (fun p => (p.1, emb p.2))) := by
  rw [embeddingsMap, createOptimizedBatches_flatten]
  have hperm : (sortByLengthDesc (indexTexts texts)).Perm (indexTexts texts) :=
    List.mergeSort_perm _ _
  have := hperm.map (fun item : IndexedText => (item.originalIndex, emb item.text))
  refine this.trans ?_
  rw [indexTexts, List.map_map]
  exact List.Perm.refl _

theorem embeddingsMap_keys_nodup (emb : String → List ℚ) (texts : List String) :
    ((embeddingsMap emb (sortByLengthDesc (indexTexts texts))).map Prod.fst).Nodup := by
  have hperm := (embeddingsMap_perm emb texts).map Prod.fst
  rw [List.Perm.nodup_iff hperm, List.map_map]
  have : (Prod.fst ∘ fun p : ℕ × String => (p.1, emb p.2)) = Prod.fst := by
    funext p
    rfl
  rw [this, List.enum_map_fst]
  exact List.nodup_range _

/-- C5: `generateEmbedding` returns one embedding per input text in the
caller's original input order, even though texts are sorted by length
descending and dispatched in reordered batches: the i-th output is the
model server's embedding for the i-th input text. -/
theorem generateEmbedding_preserves_order (emb : String → List ℚ) (texts : List String) :
    generateEmbedding emb texts = texts.map (fun t => some (emb t)) := by
  rw [generateEmbedding]
  apply List.ext_getElem
  · simp [List.enum_length]
  · intro n h1 h2
    have hn : n < texts.length := by simpa [List.enum_length] using h2
    have henum : n < texts.enum.length := by simpa [List.enum_length] using hn
    rw [List.getElem_map, List.getElem_map, List.getElem_enum]
    have hmem : ((n, emb texts[n]) : ℕ × List ℚ) ∈
        embeddingsMap emb (sortByLengthDesc (indexTexts texts)) := by
      rw [(embeddingsMap_perm emb texts).mem_iff]
      have : ((n, texts[n]) : ℕ × String) ∈ texts.enum := by
        have := List.getElem_mem (l := texts.enum) (n := n) henum
        rwa [List.getElem_enum] at this
      exact List.mem_map_of_mem (fun p : ℕ × String => (p.1, emb p.2)) this
    rw [embeddingsMapGet, find?_of_nodup_keys _ n (emb texts[n])
      (embeddingsMap_keys_nodup emb texts) hmem]
    rfl

/-! ## Content-addressed chunk ids (src: `generateContentId` in the service
utility, and `QdrantStorage.save`) -/

/-- JS `s.substring(a, b)` for ASCII strings. -/
def jsSubstring (s : String) (a b : ℕ) : String :=
  ((s.toList.drop a).take (b - a)).asString

/-- JS `s || "public"`: the empty string is falsy. -/
def jsOrPublic (s : String) : String :=
  if s = "" then "public" else s

/-- Format a 32-hex-digit md5 digest as an `8-4-4-4-12` UUID:
`[hash.substring(0,8), …, hash.substring(20,32)].join('-')`. -/
def uuidFromHex (hash : String) : String :=
  String.intercalate "-"
    [jsSubstring hash 0 8, jsSubstring hash 8 12, jsSubstring hash 12 16,
      jsSubstring hash 16 20, jsSubstring hash 20 32]

/-- `generateContentId(text, collectionId, ownerId)`: `undefined` on empty
text, else the md5 digest of `collectionId:ownerId:text` formatted as a
UUID.  The md5 primitive is Node's `crypto` library, outside this
repository; it is passed in as the hex-digest function `md5hex`. -/
def generateContentId (md5hex : String → String)
    (text collectionId ownerId : String) : Option String :=
  if text = "" then none
  else
    let input := collectionId ++ ":" ++ ownerId ++ ":" ++ text
    some (uuidFromHex (md5hex input))

/-- The id-relevant fields of a `Chunk` (vector payloads play no role in id
derivation and are omitted). -/
structure Chunk where
  chunkId : Option String
  data : String
  vectorSource : Option String
  resourceId : String
  collectionId : String
  ownerId : String
deriving DecidableEq

/-- The point id chosen by `QdrantStorage.save` for one chunk:
`content = chunk.data + (chunk?.vectorSource || "")`, then
`keepDuplicate ? chunk._id : generateContentId(content, chunk.collectionId,
chunk.ownerId || "public")`. -/
def qdrantPointId (md5hex : String → String) (c : Chunk) (keepDuplicate : Bool) :
    Option String :=
  let content := c.data ++ c.vectorSource.getD ""
  if keepDuplicate then c.chunkId
  else generateContentId md5hex content c.collectionId (jsOrPublic c.ownerId)

/-- A stand-in md5 hex-digest function for concrete instances. -/
def witnessHash : String → String :=
  fun _ => "00112233445566778899aabbccddeeff"

/-- A chunk whose `data` is empty and whose `vectorSource` is absent. -/
def chunkEmptyData : Chunk :=
  ⟨some "64b0f0a0", "", none, "res1", "col1", "owner1"⟩

/-- C1 counterexample: for a chunk with empty `data` and no `vectorSource`,
`generateContentId` returns `undefined`, so the stored point id is *not*
the md5-derived UUID the claim promises (it is `none`). -/
theorem qdrantPointId_empty_content_not_md5 :
    qdrantPointId witnessHash chunkEmptyData false = none ∧
      qdrantPointId witnessHash chunkEmptyData false ≠
        some (uuidFromHex (witnessHash
          (chunkEmptyData.collectionId ++ ":" ++ jsOrPublic chunkEmptyData.ownerId ++ ":" ++
            (chunkEmptyData.data ++ chunkEmptyData.vectorSource.getD "")))) := by
  have h0 : qdrantPointId witnessHash chunkEmptyData false = none := rfl
  refine ⟨h0, ?_⟩
  rw [h0]
  exact fun h => Option.noConfusion h

/-- C1 (amended): for every chunk whose `data + vectorSource` is non-empty,
with `keepDuplicate=false` the vector-store point id is the md5 digest of
`collectionId + ":" + (ownerId || "public") + ":" + (data + vectorSource)`
formatted as an 8-4-4-4-12 UUID; any chunk with the same collection, owner
and content receives the same id; and with `keepDuplicate=true` the chunk's
own `_id` is used instead. -/
theorem qdrantPointId_content_addressed (md5hex : String → String) (c c2 : Chunk)
    (h : c.data ++ c.vectorSource.getD "" ≠ "")
    (hsame : c2.collectionId = c.collectionId ∧ jsOrPublic c2.ownerId = jsOrPublic c.ownerId ∧
      c2.data ++ c2.vectorSource.getD "" = c.data ++ c.vectorSource.getD "") :
    qdrantPointId md5hex c false =
      some (uuidFromHex (md5hex
        (c.collectionId ++ ":" ++ jsOrPublic c.ownerId ++ ":" ++
          (c.data ++ c.vectorSource.getD "")))) ∧
    qdrantPointId md5hex c2 false = qdrantPointId md5hex c false ∧
    qdrantPointId md5hex c true = c.chunkId := by
  obtain ⟨hcol, howner, hcontent⟩ := hsame
  have hmain : qdrantPointId md5hex c false =
      some (uuidFromHex (md5hex
        (c.collectionId ++ ":" ++ jsOrPublic c.ownerId ++ ":" ++
          (c.data ++ c.vectorSource.getD "")))) := by
    rw [qdrantPointId]
    simp only [if_neg (Bool.false_ne_true)]
    rw [generateContentId, if_neg h]
  refine ⟨hmain, ?_, rfl⟩
  rw [hmain, qdrantPointId]
  simp only [if_neg (Bool.false_ne_true)]
  rw [hcontent, generateContentId, if_neg h, hcol, howner]

/-- A chunk with non-empty data. -/
def chunkHello : Chunk :=
  ⟨some "5f2d1c3a", "hello", none, "res2", "col1", "owner1"⟩

/-- A second chunk sharing `chunkHello`'s collection, owner and content but
with a different `_id` and resource. -/
def chunkHello2 : Chunk :=
  ⟨some "9e8f7a6b", "hello", none, "res3", "col1", "owner1"⟩

theorem qdrantPointId_content_addressed_witness :
    ("hello" ++ (none : Option String).getD "" ≠ "") ∧
    qdrantPointId witnessHash chunkHello false =
      some (uuidFromHex (witnessHash
        (chunkHello.collectionId ++ ":" ++ jsOrPublic chunkHello.ownerId ++ ":" ++
          (chunkHello.data ++ chunkHello.vectorSource.getD "")))) ∧
    qdrantPointId witnessHash chunkHello2 false = qdrantPointId witnessHash chunkHello false ∧
    qdrantPointId witnessHash chunkHello true = chunkHello.chunkId :=
  ⟨by decide, qdrantPointId_content_addressed witnessHash chunkHello chunkHello2
    (by decide) ⟨rfl, rfl, rfl⟩⟩

/-! ## Feedback hit counts (src: `FeedbackService.addFeedback`) and
feedback fusion (src: the `useFeedback` block of `search`) -/

/-- One row of a `FeedbackDoc`'s `hits` map. -/
structure FeedbackHit where
  chunkId : String
  resourceId : String
  count : ℤ
deriving DecidableEq

/-- The `action` discriminator of a feedback event. -/
inductive FeedbackAction
  | upvote
  | downvote
deriving DecidableEq

/-- `feedback.hits.get(chunkId)`: the JS `Map` is modelled as an
insertion-ordered association list. -/
def hitsGet (hits : List (String × FeedbackHit)) (chunkId : String) : Option FeedbackHit :=
  (hits.find? (fun p => p.1 = chunkId)).map (fun p => p.2)

/-- The hits update of `FeedbackService.addFeedback`:
`delta = action === 'upvote' ? 1 : -1`; an existing row gets
`hit.count += delta` in place, a missing row is created with `count: delta`.
There is no clamp at zero. -/
def addFeedbackHits (hits : List (String × FeedbackHit)) (chunkId resourceId : String)
    (action : FeedbackAction) : List (String × FeedbackHit) :=
  let delta : ℤ := if action = FeedbackAction.upvote then 1 else -1
  match hits.find? (fun p => p.1 = chunkId) with
  | some _ =>
    hits.map (fun p =>
      if p.1 = chunkId then (p.1, ⟨p.2.chunkId, p.2.resourceId, p.2.count + delta⟩) else p)
  | none => hits ++ [(chunkId, ⟨chunkId, resourceId, delta⟩)]

/-- The values passed to `Math.log` by the `useFeedback` fusion loop of
`search`: for each row of `feedback.hits` whose chunk id is among the
current result ids, the loop computes `Math.log(value.count) * score`. -/
def feedbackLogArguments (hits : List (String × FeedbackHit)) (resultIds : List String) :
    List ℤ :=
  (hits.filter (fun p => resultIds.contains p.1)).map (fun p => p.2.count)

theorem addFeedbackHits_absent (hits : List (String × FeedbackHit)) (c r : String)
    (a : FeedbackAction) (habs : hitsGet hits c = none) :
    hitsGet (addFeedbackHits hits c r a) c =
      some ⟨c, r, if a = FeedbackAction.upvote then 1 else -1⟩ := by
  have hfind : hits.find? (fun p => p.1 = c) = none := by
    rw [hitsGet] at habs
    exact Option.map_eq_none.mp habs
  rw [addFeedbackHits, hfind, hitsGet, List.find?_append, hfind, Option.none_or,
    List.find?_cons_of_pos _ (by simp)]
  rfl

theorem addFeedbackHits_present (hits : List (String × FeedbackHit)) (c r : String)
    (a : FeedbackAction) (h : FeedbackHit) (hpres : hitsGet hits c = some h) :
    hitsGet (addFeedbackHits hits c r a) c =
      some ⟨h.chunkId, h.resourceId,
        h.count + if a = FeedbackAction.upvote then 1 else -1⟩ := by
  rw [hitsGet] at hpres
  obtain ⟨entry, hfind, hsnd⟩ := Option.map_eq_some.mp hpres
  have hkey : entry.1 = c := by
    have := List.find?_some hfind
    simpa using this
  set delta : ℤ := if a = FeedbackAction.upvote then 1 else -1 with hdelta
  set f : String × FeedbackHit → String × FeedbackHit := fun p =>
    if p.1 = c then (p.1, ⟨p.2.chunkId, p.2.resourceId, p.2.count + delta⟩) else p with hf
  have hpreserve : ∀ p : String × FeedbackHit, (f p).1 = p.1 := by
    intro p
    rw [hf]
    by_cases hp : p.1 = c
    · simp [hp]
    · simp [hp]
  have hcomp : ((fun p : String × FeedbackHit => decide (p.1 = c)) ∘ f) =
      (fun p : String × FeedbackHit => decide (p.1 = c)) := by
    funext p
    simp [Function.comp, hpreserve p]
  rw [addFeedbackHits, hfind, hitsGet]
  rw [show (hits.map (fun p =>
      if p.1 = c then (p.1, (⟨p.2.chunkId, p.2.resourceId, p.2.count + delta⟩ : FeedbackHit))
      else p)) = hits.map f from rfl]
  rw [List.find?_map, hcomp, hfind]
  simp only [Option.map_map, Option.map_some]
  have hfe : f entry =
      (entry.1, ⟨entry.2.chunkId, entry.2.resourceId, entry.2.count + delta⟩) := by
    rw [hf]
    simp [hkey]
  show some ((fun p : String × FeedbackHit => p.2) (f entry)) = _
  rw [hfe, hsnd]

/-- C10: per-chunk feedback hit counts are unbounded below — a downvote
decrements the stored count by exactly 1 (creating the row at `-1` when
absent) with no clamp at zero; an upvote followed by a downvote on the same
chunk leaves a stored count of 0; and the fusion loop of `search` then
passes that non-positive count to `Math.log` whenever the chunk appears in
the current results. -/
theorem feedback_counts_unbounded_below :
    (∀ hits c r, hitsGet hits c = none →
      hitsGet (addFeedbackHits hits c r FeedbackAction.downvote) c = some ⟨c, r, -1⟩) ∧
    (∀ hits c r h, hitsGet hits c = some h →
      hitsGet (addFeedbackHits hits c r FeedbackAction.downvote) c =
        some ⟨h.chunkId, h.resourceId, h.count - 1⟩) ∧
    (∃ hits : List (String × FeedbackHit), ∃ n : ℤ,
      hits = addFeedbackHits
        (addFeedbackHits [] "chunk1" "res1" FeedbackAction.upvote)
        "chunk1" "res1" FeedbackAction.downvote ∧
      hitsGet hits "chunk1" = some ⟨"chunk1", "res1", n⟩ ∧ n ≤ 0 ∧
      n ∈ feedbackLogArguments hits ["chunk1"]) := by
  refine ⟨?_, ?_, ?_⟩
  · intro hits c r habs
    rw [addFeedbackHits_absent hits c r FeedbackAction.downvote habs]
    have hite : (if FeedbackAction.downvote = FeedbackAction.upvote then (1 : ℤ) else -1) = -1 :=
      by decide
    rw [hite]
  · intro hits c r h hpres
    rw [addFeedbackHits_present hits c r FeedbackAction.downvote h hpres]
    have hite : (if FeedbackAction.downvote = FeedbackAction.upvote then (1 : ℤ) else -1) = -1 :=
      by decide
    have hsub : h.count + (-1 : ℤ) = h.count - 1 := by ring
    rw [hite, hsub]
  · exact ⟨_, 0, rfl, by decide, le_refl 0, by decide⟩

theorem feedback_counts_unbounded_below_witness :
    hitsGet [] "chunk1" = none ∧
    hitsGet (addFeedbackHits [] "chunk1" "res1" FeedbackAction.downvote) "chunk1" =
      some ⟨"chunk1", "res1", -1⟩ :=
  ⟨rfl, feedback_counts_unbounded_below.1 [] "chunk1" "res1" rfl⟩

/-! ## Linear projection adapter (src: `LinearProjectionAdapter` and
`AdapterService` in the adapters service) -/

/-- Sum of squares of a vector's entries. -/
noncomputable def l2normSq (v : List ℝ) : ℝ :=
  (v.map (fun x => x * x)).sum

/-- Euclidean norm, `tf.norm(v, 'euclidean')`. -/
noncomputable def l2norm (v : List ℝ) : ℝ :=
  Real.sqrt (l2normSq v)

/-- Output of the transform's normalization step:
`rawResult.div(norm.add(tf.scalar(1e-12)))`. -/
noncomputable def l2normalize (v : List ℝ) : List ℝ :=
  v.map (fun x => x / (l2norm v + 1e-12))

/-- Column `j` of the dense-layer product: `Σ_i q[i] * W[i][j]`
(the tf kernel has shape `[inputDim, units]`). -/
noncomputable def matVecColumn (weights : List (List ℝ)) (q : List ℝ) (j : ℕ) : ℝ :=
  ((q.zip weights).map (fun qw => qw.1 * qw.2.getD j 0)).sum

/-- The dense layer forward pass `model.predict`: `y[j] = Σ_i q[i]*W[i][j] + b[j]`. -/
noncomputable def denseForward (weights : List (List ℝ)) (bias : List ℝ) (q : List ℝ) : List ℝ :=
  bias.enum.map (fun jb => matVecColumn weights q jb.1 + jb.2)

/-- The persisted adapter record
`{weights[D][D], bias[D], inputDim, outputDim, trainingCount}`. -/
structure AdapterData where
  weights : List (List ℝ)
  bias : List ℝ
  inputDim : ℕ
  outputDim : ℕ
  trainingCount : ℕ

/-- An adapter with its model in memory. -/
structure LoadedAdapter where
  weights : List (List ℝ)
  bias : List ℝ
  inputDim : ℕ

/-- `loadModelFromData`: restore weights; an absent/empty bias becomes
`tf.zeros([inputDim])`; `this.inputDim = data.inputDim`. -/
noncomputable def loadModelFromData (d : AdapterData) : LoadedAdapter :=
  ⟨d.weights, if d.bias ≠ [] then d.bias else List.replicate d.inputDim 0, d.inputDim⟩

/-- The one error `transform` raises. -/
inductive AdapterError
  | dimensionMismatch
deriving DecidableEq

/-- `LinearProjectionAdapter.transform(queryVector)`: throw on dimension
mismatch, else run the forward pass, L2-normalize with the `1e-12` guard,
and return. -/
noncomputable def transform (a : LoadedAdapter) (q : List ℝ) : Except AdapterError (List ℝ) :=
  if q.length ≠ a.inputDim then Except.error AdapterError.dimensionMismatch
  else Except.ok (l2normalize (denseForward a.weights a.bias q))

/-- `AdapterService.transformQuery(collectionId, queryVector)`: the storage
lookup (`adapterExistsInStorage`) reports `exists = trainingCount > 0`; with
no stored record or `trainingCount = 0` the original vector is returned;
otherwise the adapter is loaded from the record and applied, and any thrown
error falls back to the original vector. -/
noncomputable def transformQuery (storage : Option AdapterData) (q : List ℝ) : List ℝ :=
  match storage with
  | none => q
  | some d =>
    if d.trainingCount = 0 then q
    else
      match transform (loadModelFromData d) q with
      | Except.ok v => v
      | Except.error _ => q

/-- C2: for a collection whose adapter storage has `trainingCount = 0` (or
no stored adapter at all), `transformQuery` returns the query vector
itself — exact equality, hence equality within 1e-5 componentwise. -/
theorem transformQuery_identity_when_untrained (storage : Option AdapterData) (q : List ℝ)
    (h : storage = none ∨ ∃ d, storage = some d ∧ d.trainingCount = 0) :
    transformQuery storage q = q := by
  rcases h with rfl | ⟨d, rfl, hzero⟩
  · rfl
  · rw [transformQuery, if_pos hzero]

/-- An adapter record with zero training count. -/
noncomputable def untrainedData : AdapterData :=
  ⟨[[1, 0], [0, 1]], [0, 0], 2, 2, 0⟩

theorem transformQuery_identity_when_untrained_witness :
    untrainedData.trainingCount = 0 ∧
      transformQuery (some untrainedData) [(1 : ℝ) / 2, 3] = [(1 : ℝ) / 2, 3] :=
  ⟨rfl, transformQuery_identity_when_untrained (some untrainedData) [(1 : ℝ) / 2, 3]
    (Or.inr ⟨untrainedData, rfl, rfl⟩)⟩

theorem l2normSq_nonneg (v : List ℝ) : 0 ≤ l2normSq v := by
  rw [l2normSq]
  apply List.sum_nonneg
  intro x hx
  obtain ⟨y, _, rfl⟩ := List.mem_map.mp hx
  exact mul_self_nonneg y

theorem l2norm_nonneg (v : List ℝ) : 0 ≤ l2norm v :=
  Real.sqrt_nonneg _

theorem l2normSq_map_div (v : List ℝ) (c : ℝ) :
    l2normSq (v.map (fun x => x / c)) = l2normSq v / (c * c) := by
  induction v with
  | nil => simp [l2normSq]
  | cons x rest ih =>
    simp only [l2normSq, List.map_cons, List.sum_cons] at ih ⊢
    rw [ih]
    rw [div_mul_div_comm, add_div]

theorem l2norm_map_div (v : List ℝ) (c : ℝ) (hc : 0 < c) :
    l2norm (v.map (fun x => x / c)) = l2norm v / c := by
  rw [l2norm, l2norm, l2normSq_map_div, Real.sqrt_div (l2normSq_nonneg v),
    Real.sqrt_mul_self hc.le]

/-- Norm of the normalized output: `‖r‖ / (‖r‖ + 1e-12)`. -/
theorem l2norm_l2normalize (r : List ℝ) :
    l2norm (l2normalize r) = l2norm r / (l2norm r + 1e-12) := by
  have hc : (0 : ℝ) < l2norm r + 1e-12 := by
    have := l2norm_nonneg r
    norm_num
    linarith
  rw [l2normalize, l2norm_map_div r _ hc]

/-- The adapter with zero weights and zero bias in dimension 1. -/
noncomputable def zeroAdapter : LoadedAdapter :=
  ⟨[[0]], [0], 1⟩

theorem denseForward_zeroAdapter : denseForward zeroAdapter.weights zeroAdapter.bias [1] = [0] := by
  rw [zeroAdapter, denseForward]
  simp [List.enum, matVecColumn]

/-- C3 counterexample: with weights `W = 0` and bias `b = 0` the forward
pass output is the zero vector, the `1e-12`-guarded normalization returns
the zero vector unchanged, and its Euclidean norm is 0, not 1 within 1e-5 —
so `transform` does not return a unit vector for every weight/bias state. -/
theorem transform_zero_weights_not_unit :
    transform zeroAdapter [1] = Except.ok [0] ∧
      ¬(|l2norm ([0] : List ℝ) - 1| ≤ 1e-5) := by
  constructor
  · rw [transform, if_neg (by norm_num [zeroAdapter]), denseForward_zeroAdapter]
    rw [l2normalize]
    simp
  · have h0 : l2norm ([0] : List ℝ) = 0 := by
      rw [l2norm, l2normSq]
      simp
    rw [h0]
    norm_num

/-- C3 (amended): whenever the raw forward-pass output `W q + b` has
Euclidean norm at least `1e-7` (in particular whenever it is not
vanishingly small) and the query has the adapter's input dimension,
`transform` succeeds and returns a vector whose Euclidean norm is within
`1e-5` of 1.  The zero/near-zero raw output is a genuine exception: there
the `1e-12` guard makes the returned norm fall short of 1. -/
theorem transform_unit_norm (a : LoadedAdapter) (q : List ℝ)
    (hdim : q.length = a.inputDim)
    (hraw : 1e-7 ≤ l2norm (denseForward a.weights a.bias q)) :
    transform a q = Except.ok (l2normalize (denseForward a.weights a.bias q)) ∧
      |l2norm (l2normalize (denseForward a.weights a.bias q)) - 1| ≤ 1e-5 := by
  constructor
  · rw [transform, if_neg (by simp [hdim])]
  · set N := l2norm (denseForward a.weights a.bias q) with hN
    have hNpos : (0 : ℝ) < N + 1e-12 := by linarith
    rw [l2norm_l2normalize, ← hN]
    have hval : N / (N + 1e-12) - 1 = -(1e-12 / (N + 1e-12)) := by
      field_simp
    rw [hval, abs_neg, abs_of_nonneg (by positivity)]
    have hbound : (1e-12 : ℝ) / (N + 1e-12) ≤ 1e-12 / 1e-7 := by
      apply div_le_div_of_nonneg_left (by norm_num) (by norm_num)
      linarith
    calc (1e-12 : ℝ) / (N + 1e-12) ≤ 1e-12 / 1e-7 := hbound
      _ ≤ 1e-5 := by norm_num

/-- The 1-dimensional identity adapter. -/
noncomputable def idAdapter : LoadedAdapter :=
  ⟨[[1]], [0], 1⟩

theorem idAdapter_forward : denseForward idAdapter.weights idAdapter.bias [1] = [1] := by
  rw [idAdapter, denseForward]
  simp [List.enum, matVecColumn]

theorem transform_unit_norm_witness :
    ([(1 : ℝ)].length = idAdapter.inputDim) ∧
    (1e-7 ≤ l2norm (denseForward idAdapter.weights idAdapter.bias [1])) ∧
    (transform idAdapter [1] =
        Except.ok (l2normalize (denseForward idAdapter.weights idAdapter.bias [1])) ∧
      |l2norm (l2normalize (denseForward idAdapter.weights idAdapter.bias [1])) - 1| ≤ 1e-5) := by
  have hnorm : l2norm (denseForward idAdapter.weights idAdapter.bias [1]) = 1 := by
    rw [idAdapter_forward, l2norm, l2normSq]
    simp
  refine ⟨rfl, by rw [hnorm]; norm_num, ?_⟩
  exact transform_unit_norm idAdapter [1] rfl (by rw [hnorm]; norm_num)

/-- C8: `transform` raises exactly the dimension-mismatch error, precisely
when the query length differs from the adapter's input dimension; and when
the loaded adapter's transform raises any error, `transformQuery` returns
the original query vector instead of propagating it. -/
theorem transformQuery_error_fallback :
    (∀ (a : LoadedAdapter) (q : List ℝ),
      transform a q = Except.error AdapterError.dimensionMismatch ↔ q.length ≠ a.inputDim) ∧
    (∀ (d : AdapterData) (q : List ℝ) (e : AdapterError),
      transform (loadModelFromData d) q = Except.error e → transformQuery (some d) q = q) := by
  constructor
  · intro a q
    constructor
    · intro h hlen
      rw [transform, if_neg (by simp [hlen])] at h
      cases h
    · intro hlen
      rw [transform, if_pos hlen]
  · intro d q e herr
    rw [transformQuery]
    by_cases hzero : d.trainingCount = 0
    · rw [if_pos hzero]
    · rw [if_neg hzero, herr]

/-- A trained 2-dimensional adapter record. -/
noncomputable def trainedData : AdapterData :=
  ⟨[[1, 0], [0, 1]], [0, 0], 2, 2, 1⟩

theorem transformQuery_error_fallback_witness :
    transform (loadModelFromData trainedData) [(1 : ℝ)] =
        Except.error AdapterError.dimensionMismatch ∧
      transformQuery (some trainedData) [(1 : ℝ)] = [(1 : ℝ)] := by
  have herr : transform (loadModelFromData trainedData) [(1 : ℝ)] =
      Except.error AdapterError.dimensionMismatch :=
    (transformQuery_error_fallback.1 (loadModelFromData trainedData) [(1 : ℝ)]).mpr
      (by norm_num [loadModelFromData, trainedData])
  exact ⟨herr,
    transformQuery_error_fallback.2 trainedData [(1 : ℝ)] AdapterError.dimensionMismatch herr⟩

/-! ## Semantic chunker grouping (src: `SemanticChunker.groupSentencesIntoChunks`) -/

/-- JS `array.join(" ")`. -/
def joinSp : List String → String
  | [] => ""
  | [s] => s
  | s :: rest => s ++ " " ++ joinSp rest

/-- The mutable loop state of `groupSentencesIntoChunks`:
`chunks`, `currentChunk`, `currentLength`. -/
structure GroupState where
  chunks : List String
  cur : List String
  curLen : ℕ
deriving DecidableEq

/-- Stage 1 of the grouping loop: forced split when the size limit would be
exceeded by the incoming sentence. -/
def flushIfOversize (maxCS : ℕ) (s : String) (st : GroupState) : GroupState :=
  if st.cur ≠ [] ∧ maxCS < st.curLen + 1 + s.length then
    ⟨st.chunks ++ [joinSp st.cur], [], 0⟩
  else st

/-- Stage 2 of the grouping loop: semantic split at a breakpoint, but only
when the current chunk already holds at least `minChunkSize` characters. -/
def flushIfBreakpoint (minCS : ℕ) (bps : List ℕ) (i : ℕ) (st : GroupState) : GroupState :=
  if i ∈ bps ∧ st.cur ≠ [] ∧ minCS ≤ st.curLen then
    ⟨st.chunks ++ [joinSp st.cur], [], 0⟩
  else st

/-- Stage 3 of the grouping loop: push the sentence and book-keep
`currentLength` (`+1` for the join separator once the chunk has more than
one sentence). -/
def pushSentence (s : String) (st : GroupState) : GroupState :=
  let cur3 := st.cur ++ [s]
  ⟨st.chunks, cur3, st.curLen + (if 1 < cur3.length then 1 else 0) + s.length⟩

/-- One iteration of the grouping loop for the enumerated sentence
`(i, sentence)`. -/
def groupStep (minCS maxCS : ℕ) (bps : List ℕ) (st : GroupState)
    (p : ℕ × String) : GroupState :=
  pushSentence p.2 (flushIfBreakpoint minCS bps p.1 (flushIfOversize maxCS p.2 st))

/-- The leftover handling after the loop: push the final chunk, first trying
to merge it into the previous one when it is below `minChunkSize` and the
merge stays within `maxChunkSize`. -/
def groupFinal (minCS maxCS : ℕ) (st : GroupState) : List String :=
  if st.cur = [] then st.chunks
  else if st.chunks ≠ [] ∧ (joinSp st.cur).length < minCS then
    (if (st.chunks.getLastD "" ++ " " ++ joinSp st.cur).length ≤ maxCS then
      st.chunks.dropLast ++ [st.chunks.getLastD "" ++ " " ++ joinSp st.cur]
    else st.chunks ++ [joinSp st.cur])
  else st.chunks ++ [joinSp st.cur]

/-- `groupSentencesIntoChunks(sentences, breakpoints)` with the instance's
`minChunkSize` / `maxChunkSize`. -/
def groupSentencesIntoChunks (minCS maxCS : ℕ) (sentences : List String)
    (bps : List ℕ) : List String :=
  groupFinal minCS maxCS (sentences.enum.foldl (groupStep minCS maxCS bps) ⟨[], [], 0⟩)

theorem joinSp_length_append (l : List String) (s : String) (hl : l ≠ []) :
    (joinSp (l ++ [s])).length = (joinSp l).length + 1 + s.length := by
  induction l with
  | nil => exact absurd rfl hl
  | cons x rest ih =>
    cases rest with
    | nil =>
      have hx : joinSp ([x] ++ [s]) = x ++ " " ++ s := rfl
      rw [hx, String.length_append, String.length_append]
      rfl
    | cons y t =>
      have hne : y :: t ≠ [] := by simp
      have hx : joinSp ((x :: y :: t) ++ [s]) = x ++ " " ++ joinSp ((y :: t) ++ [s]) := rfl
      have hx2 : joinSp (x :: y :: t) = x ++ " " ++ joinSp (y :: t) := rfl
      rw [hx, hx2, String.length_append, String.length_append, ih hne,
        String.length_append, String.length_append]
      ring

/-- The invariant carried through the grouping loop: `currentLength` is the
length of the joined current chunk; a non-empty current chunk either fits in
`maxChunkSize` or is a single sentence of the input; every emitted chunk
fits in `maxChunkSize` or is a single overlong input sentence. -/
def GroupInv (maxCS : ℕ) (S : List String) (st : GroupState) : Prop :=
  st.curLen = (joinSp st.cur).length ∧
  (st.cur ≠ [] → ((joinSp st.cur).length ≤ maxCS ∨ ∃ s ∈ S, st.cur = [s])) ∧
  (∀ c ∈ st.chunks, c.length ≤ maxCS ∨ (c ∈ S ∧ maxCS < c.length))

theorem groupInv_flushed (maxCS : ℕ) (S : List String) (st : GroupState)
    (hinv : GroupInv maxCS S st) (hne : st.cur ≠ []) :
    (joinSp st.cur).length ≤ maxCS ∨ (joinSp st.cur ∈ S ∧ maxCS < (joinSp st.cur).length) := by
  rcases hinv.2.1 hne with hle | ⟨s, hs, hcur⟩
  · exact Or.inl hle
  · by_cases hlen : (joinSp st.cur).length ≤ maxCS
    · exact Or.inl hlen
    · refine Or.inr ⟨?_, lt_of_not_le hlen⟩
      rw [hcur]
      exact hs

theorem groupInv_flush_state (maxCS : ℕ) (S : List String) (st : GroupState)
    (hinv : GroupInv maxCS S st) (hne : st.cur ≠ []) :
    GroupInv maxCS S ⟨st.chunks ++ [joinSp st.cur], [], 0⟩ := by
  refine ⟨rfl, fun h => absurd rfl h, ?_⟩
  intro c hc
  rcases List.mem_append.mp hc with hc | hc
  · exact hinv.2.2 c hc
  · rw [List.mem_singleton.mp hc]
    exact groupInv_flushed maxCS S st hinv hne

theorem flushIfOversize_inv (maxCS : ℕ) (S : List String) (s : String) (st : GroupState)
    (hinv : GroupInv maxCS S st) : GroupInv maxCS S (flushIfOversize maxCS s st) := by
  rw [flushIfOversize]
  by_cases h : st.cur ≠ [] ∧ maxCS < st.curLen + 1 + s.length
  · rw [if_pos h]
    exact groupInv_flush_state maxCS S st hinv h.1
  · rw [if_neg h]
    exact hinv

/-- After the forced-split stage, either the current chunk is empty or the
incoming sentence still fits. -/
theorem flushIfOversize_post (maxCS : ℕ) (s : String) (st : GroupState) :
    (flushIfOversize maxCS s st).cur = [] ∨
      (flushIfOversize maxCS s st).curLen + 1 + s.length ≤ maxCS := by
  rw [flushIfOversize]
  by_cases h : st.cur ≠ [] ∧ maxCS < st.curLen + 1 + s.length
  · rw [if_pos h]
    exact Or.inl rfl
  · rw [if_neg h]
    rcases not_and_or.mp h with hc | hlt
    · exact Or.inl (not_not.mp hc)
    · exact Or.inr (le_of_not_lt hlt)

theorem flushIfBreakpoint_inv (minCS maxCS : ℕ) (bps : List ℕ) (S : List String)
    (i : ℕ) (st : GroupState) (hinv : GroupInv maxCS S st) :
    GroupInv maxCS S (flushIfBreakpoint minCS bps i st) := by
  rw [flushIfBreakpoint]
  by_cases h : i ∈ bps ∧ st.cur ≠ [] ∧ minCS ≤ st.curLen
  · rw [if_pos h]
    exact groupInv_flush_state maxCS S st hinv h.2.1
  · rw [if_neg h]
    exact hinv

theorem flushIfBreakpoint_post (minCS maxCS : ℕ) (bps : List ℕ) (s : String)
    (i : ℕ) (st : GroupState)
    (hpost : st.cur = [] ∨ st.curLen + 1 + s.length ≤ maxCS) :
    (flushIfBreakpoint minCS bps i st).cur = [] ∨
      (flushIfBreakpoint minCS bps i st).curLen + 1 + s.length ≤ maxCS := by
  rw [flushIfBreakpoint]
  by_cases h : i ∈ bps ∧ st.cur ≠ [] ∧ minCS ≤ st.curLen
  · rw [if_pos h]
    exact Or.inl rfl
  · rw [if_neg h]
    exact hpost

theorem pushSentence_inv (maxCS : ℕ) (S : List String) (s : String) (st : GroupState)
    (hinv : GroupInv maxCS S st) (hs : s ∈ S)
    (hpost : st.cur = [] ∨ st.curLen + 1 + s.length ≤ maxCS) :
    GroupInv maxCS S (pushSentence s st) := by
  obtain ⟨hlen, hcur, hchunks⟩ := hinv
  rw [pushSentence]
  by_cases hnil : st.cur = []
  · refine ⟨?_, ?_, hchunks⟩
    · show st.curLen + (if 1 < (st.cur ++ [s]).length then 1 else 0) + s.length =
        (joinSp (st.cur ++ [s])).length
      rw [hnil] at hlen ⊢
      simp only [joinSp] at hlen
      simp [joinSp, hlen]
    · intro _
      refine Or.inr ⟨s, hs, ?_⟩
      show st.cur ++ [s] = [s]
      rw [hnil]
      rfl
  · have hfit : st.curLen + 1 + s.length ≤ maxCS := hpost.resolve_left hnil
    have hjoin : (joinSp (st.cur ++ [s])).length = (joinSp st.cur).length + 1 + s.length :=
      joinSp_length_append st.cur s hnil
    have hone : 1 < (st.cur ++ [s]).length := by
      rw [List.length_append, List.length_singleton]
      have := List.length_pos.mpr hnil
      omega
    refine ⟨?_, ?_, hchunks⟩
    · show st.curLen + (if 1 < (st.cur ++ [s]).length then 1 else 0) + s.length =
        (joinSp (st.cur ++ [s])).length
      rw [if_pos hone, hjoin, hlen]
    · intro _
      refine Or.inl ?_
      show (joinSp (st.cur ++ [s])).length ≤ maxCS
      rw [hjoin, ← hlen]
      exact hfit

theorem groupStep_inv (minCS maxCS : ℕ) (bps : List ℕ) (S : List String)
    (st : GroupState) (p : ℕ × String) (hs : p.2 ∈ S)
    (hinv : GroupInv maxCS S st) :
    GroupInv maxCS S (groupStep minCS maxCS bps st p) := by
  rw [groupStep]
  exact pushSentence_inv maxCS S p.2 _
    (flushIfBreakpoint_inv minCS maxCS bps S p.1 _
      (flushIfOversize_inv maxCS S p.2 st hinv))
    hs
    (flushIfBreakpoint_post minCS maxCS bps p.2 p.1 _
      (flushIfOversize_post maxCS p.2 st))

theorem groupFold_inv (minCS maxCS : ℕ) (bps : List ℕ) (S : List String)
    (l : List (ℕ × String)) (hl : ∀ p ∈ l, p.2 ∈ S) :
    ∀ st : GroupState, GroupInv maxCS S st →
      GroupInv maxCS S (l.foldl (groupStep minCS maxCS bps) st) := by
  induction l with
  | nil => exact fun st h => h
  | cons p rest ih =>
    intro st hinv
    rw [List.foldl_cons]
    exact ih (fun q hq => hl q (List.mem_cons_of_mem p hq)) _
      (groupStep_inv minCS maxCS bps S st p (hl p (List.mem_cons_self p rest)) hinv)

/-- C6 (amended): every chunk produced by the grouping pass either has
length at most `maxChunkSize` or is a single input sentence longer than
`maxChunkSize`; the `minChunkSize` lower bound holds only for chunks
emitted at semantic breakpoints, not for chunks emitted by the forced size
split (see the counterexample) or for the final chunk. -/
theorem groupSentences_upper_bound (minCS maxCS : ℕ) (sentences : List String)
    (bps : List ℕ) :
    (groupSentencesIntoChunks minCS maxCS sentences bps).Forall
      (fun c => c.length ≤ maxCS ∨ (c ∈ sentences ∧ maxCS < c.length)) := by
  rw [List.forall_iff_forall_mem]
  have hl : ∀ p ∈ sentences.enum, p.2 ∈ sentences := by
    intro p hp
    exact List.snd_mem_of_mem_enum hp
  have hinv := groupFold_inv minCS maxCS bps sentences sentences.enum hl
    ⟨[], [], 0⟩ ⟨rfl, fun h => absurd rfl h, fun c hc => absurd hc (List.not_mem_nil c)⟩
  set st := sentences.enum.foldl (groupStep minCS maxCS bps) (⟨[], [], 0⟩ : GroupState)
    with hst
  intro c hc
  rw [groupSentencesIntoChunks, ← hst, groupFinal] at hc
  by_cases hnil : st.cur = []
  · rw [if_pos hnil] at hc
    exact hinv.2.2 c hc
  · rw [if_neg hnil] at hc
    have hlast := groupInv_flushed maxCS sentences st hinv hnil
    by_cases hmerge : st.chunks ≠ [] ∧ (joinSp st.cur).length < minCS
    · rw [if_pos hmerge] at hc
      by_cases hcomb : (st.chunks.getLastD "" ++ " " ++ joinSp st.cur).length ≤ maxCS
      · rw [if_pos hcomb] at hc
        rcases List.mem_append.mp hc with hcd | hcd
        · exact hinv.2.2 c (List.mem_of_mem_dropLast hcd)
        · rw [List.mem_singleton.mp hcd]
          exact Or.inl hcomb
      · rw [if_neg hcomb] at hc
        rcases List.mem_append.mp hc with hcd | hcd
        · exact hinv.2.2 c hcd
        · rw [List.mem_singleton.mp hcd]
          exact hlast
    · rw [if_neg hmerge] at hc
      rcases List.mem_append.mp hc with hcd | hcd
      · exact hinv.2.2 c hcd
      · rw [List.mem_singleton.mp hcd]
        exact hlast

/-- C6 counterexample: with `minChunkSize = 10`, `maxChunkSize = 20` and
sentences `"aaaa."` (5 chars) and `"bbbbbbbbbbbbbbbbbbb."` (20 chars), the
forced size split emits the 5-character chunk `"aaaa."` — a non-final chunk
shorter than `minChunkSize` that is not an overlong single sentence, so the
claimed `[minChunkSize, maxChunkSize]` bound fails for non-final chunks. -/
theorem groupSentences_short_nonfinal_chunk :
    groupSentencesIntoChunks 10 20 ["aaaa.", "bbbbbbbbbbbbbbbbbbb."] [] =
      ["aaaa.", "bbbbbbbbbbbbbbbbbbb."] ∧
    ("aaaa." : String).length < 10 ∧ ("aaaa." : String).length ≤ 20 := by
  refine ⟨?_, by decide, by decide⟩
  rfl

/-! ## Feedback worker (src: `processFeedback` in the feedback consumer,
`FeedbackService.createFeedback` / `addFeedback`), over a modelled dense
vector index -/

/-- Cosine similarity as the source computes it (`cosineSimilarity` in the
semantic chunker): 0 on length mismatch, empty vectors or zero denominator,
else `dot / (‖a‖ * ‖b‖)`. -/
noncomputable def cosineSim (a b : List ℝ) : ℝ :=
  if a.length ≠ b.length ∨ a.length = 0 then 0
  else
    let dot := ((a.zip b).map (fun p => p.1 * p.2)).sum
    let denom := Real.sqrt (l2normSq a) * Real.sqrt (l2normSq b)
    if denom = 0 then 0 else dot / denom

/-- A point of the `feedback_<collectionId>` vector collection: the id, the
stored dense query embedding, and the `ownerId` payload. -/
structure FeedbackPoint where
  id : String
  dense : List ℝ
  ownerId : String

/-- One `FeedbackDoc` of the document store. -/
structure FeedbackDoc where
  docId : String
  collectionId : String
  query : String
  ownerId : String
  hits : List (String × FeedbackHit)

/-- The state touched by the feedback worker for one collection: the
`feedback_<collectionId>` vector collection and the feedback documents. -/
structure FeedbackState where
  points : List FeedbackPoint
  docs : List FeedbackDoc

/-- A `search-feedback` queue event. -/
structure FeedbackEvent where
  query : String
  chunkId : String
  resourceId : String
  action : FeedbackAction
  collectionId : String
  ownerId : String

/-- One step of the running-best fold used to model the limit-1 dense
query. -/
noncomputable def searchFoldStep (q : List ℝ) (best : Option (String × ℝ))
    (p : FeedbackPoint) : Option (String × ℝ) :=
  match best with
  | none => some (p.id, cosineSim q p.dense)
  | some (bid, bs) =>
    if bs < cosineSim q p.dense then some (p.id, cosineSim q p.dense) else some (bid, bs)

/-- Modelled from the spec: the vector index's dense query (the Qdrant
engine is outside this repository; §4.4 stipulates a cosine-scored dense
query with a payload filter).  `search(feedback_<cid>, qVec, 1, filter)`
returns the stored point of highest cosine score among those whose
`ownerId` payload matches the filter, together with that score. -/
noncomputable def denseSearchTop (points : List FeedbackPoint) (q : List ℝ)
    (owner : String) : Option (String × ℝ) :=
  (points.filter (fun p => p.ownerId = owner)).foldl (searchFoldStep q) none

/-- `Feedback.findById` on the modelled document store. -/
def findDoc (docs : List FeedbackDoc) (id : String) : Option FeedbackDoc :=
  docs.find? (fun d => d.docId = id)

/-- `FeedbackService.addFeedback` applied to the doc with the given id:
update its `hits` map in place. -/
def updateDoc (docs : List FeedbackDoc) (id chunkId resourceId : String)
    (action : FeedbackAction) : List FeedbackDoc :=
  docs.map (fun d =>
    if d.docId = id then
      ⟨d.docId, d.collectionId, d.query, d.ownerId,
        addFeedbackHits d.hits chunkId resourceId action⟩
    else d)

/-- The miss path of `processFeedback`: no similar prior feedback found —
mint the content-addressed id from `(query, collectionId, ownerId)`, insert
the query point into `feedback_<collectionId>`, create the doc, then
`addFeedback` on it.  `none` models the worker throwing (the event goes to
the `-failed` queue), which happens when `generateContentId` yields
`undefined` for an empty query. -/
noncomputable def processFeedbackMiss (emb : String → List ℝ) (md5hex : String → String)
    (e : FeedbackEvent) (s : FeedbackState) : Option FeedbackState :=
  match generateContentId md5hex e.query e.collectionId e.ownerId with
  | none => none
  | some fid =>
    some ⟨s.points ++ [⟨fid, emb e.query, e.ownerId⟩],
      updateDoc (s.docs ++ [⟨fid, e.collectionId, e.query, e.ownerId, []⟩])
        fid e.chunkId e.resourceId e.action⟩

/-- `processFeedback(message)` for a collection with a dense model and no
sparse model, with the embedding server modelled by `emb` and md5 by
`md5hex`: embed the query; fetch the single nearest prior feedback point
owned by `ownerId || "public"`; when its score exceeds `0.9` and its doc
exists, reuse that feedbackId and `addFeedback` on the existing doc;
otherwise take the miss path. -/
noncomputable def processFeedback (emb : String → List ℝ) (md5hex : String → String)
    (e : FeedbackEvent) (s : FeedbackState) : Option FeedbackState :=
  let denseEmbedding := emb e.query
  let result := denseSearchTop s.points denseEmbedding (jsOrPublic e.ownerId)
  let feedbackId : Option String :=
    match result with
    | some (id, score) => if (0.9 : ℝ) < score then some id else none
    | none => none
  let feedback := feedbackId.bind (fun id => findDoc s.docs id)
  match feedback with
  | some doc =>
    some ⟨s.points, updateDoc s.docs doc.docId e.chunkId e.resourceId e.action⟩
  | none => processFeedbackMiss emb md5hex e s

/-- The content-addressed feedback id
`generateContentId(query, collectionId, ownerId)` yields for a non-empty
query. -/
def contentFeedbackId (md5hex : String → String) (e : FeedbackEvent) : String :=
  uuidFromHex (md5hex (e.collectionId ++ ":" ++ e.ownerId ++ ":" ++ e.query))

/-- The `FeedbackDoc` as `createFeedback` stores it, before the event's own
`addFeedback` (empty hits map). -/
def firstDocBefore (md5hex : String → String) (e : FeedbackEvent) : FeedbackDoc :=
  ⟨contentFeedbackId md5hex e, e.collectionId, e.query, e.ownerId, []⟩

/-- The `FeedbackDoc` created for an event that found no similar prior
query, after its own `addFeedback`. -/
def firstFeedbackDoc (md5hex : String → String) (e : FeedbackEvent) : FeedbackDoc :=
  ⟨contentFeedbackId md5hex e, e.collectionId, e.query, e.ownerId,
    addFeedbackHits [] e.chunkId e.resourceId e.action⟩

/-- The state after a first feedback event on an empty feedback store. -/
noncomputable def firstFeedbackState (emb : String → List ℝ) (md5hex : String → String)
    (e : FeedbackEvent) : FeedbackState :=
  ⟨[⟨contentFeedbackId md5hex e, emb e.query, e.ownerId⟩], [firstFeedbackDoc md5hex e]⟩

theorem generateContentId_of_ne (md5hex : String → String) (e : FeedbackEvent)
    (hq : e.query ≠ "") :
    generateContentId md5hex e.query e.collectionId e.ownerId =
      some (contentFeedbackId md5hex e) := by
  rw [generateContentId, if_neg hq]
  rfl

theorem searchFold_le (q : List ℝ) (l : List FeedbackPoint)
    (acc : Option (String × ℝ))
    (hacc : ∀ id sc, acc = some (id, sc) → sc ≤ 0.9)
    (hl : ∀ p ∈ l, cosineSim q p.dense ≤ 0.9) :
    ∀ id sc, l.foldl (searchFoldStep q) acc = some (id, sc) → sc ≤ 0.9 := by
  induction l generalizing acc with
  | nil => exact hacc
  | cons p rest ih =>
    rw [List.foldl_cons]
    refine ih (searchFoldStep q acc p) ?_ (fun p' hp' => hl p' (List.mem_cons_of_mem p hp'))
    intro id sc hstep
    have hp : cosineSim q p.dense ≤ 0.9 := hl p (List.mem_cons_self p rest)
    cases acc with
    | none =>
      simp only [searchFoldStep, Option.some.injEq, Prod.mk.injEq] at hstep
      rw [← hstep.2]
      exact hp
    | some pr =>
      obtain ⟨bid, bs⟩ := pr
      have hbs : bs ≤ 0.9 := hacc bid bs rfl
      simp only [searchFoldStep] at hstep
      by_cases hlt : bs < cosineSim q p.dense
      · rw [if_pos hlt] at hstep
        simp only [Option.some.injEq, Prod.mk.injEq] at hstep
        rw [← hstep.2]
        exact hp
      · rw [if_neg hlt] at hstep
        simp only [Option.some.injEq, Prod.mk.injEq] at hstep
        rw [← hstep.2]
        exact hbs

theorem updateDoc_append_fresh (docs : List FeedbackDoc) (nd : FeedbackDoc)
    (c r : String) (a : FeedbackAction)
    (hfresh : ∀ d ∈ docs, d.docId ≠ nd.docId) :
    updateDoc (docs ++ [nd]) nd.docId c r a =
      docs ++ [⟨nd.docId, nd.collectionId, nd.query, nd.ownerId,
        addFeedbackHits nd.hits c r a⟩] := by
  rw [updateDoc, List.map_append]
  congr 1
  · rw [show docs.map (fun d =>
        if d.docId = nd.docId then
          (⟨d.docId, d.collectionId, d.query, d.ownerId,
            addFeedbackHits d.hits c r a⟩ : FeedbackDoc)
        else d) = docs.map id from
      List.map_congr_left (fun d hd => by rw [if_neg (hfresh d hd)]; rfl)]
    exact List.map_id docs
  · rw [List.map_singleton, if_pos rfl]

/-- C7: (1) starting from an empty feedback store, a first event with a
non-empty query creates the content-addressed doc and query point, and a
second event on the same collection by the same owner whose query embedding
has cosine similarity above `0.9` with the first reuses that stored
feedback id — no new point, no new doc, both hit updates accumulated in the
single `FeedbackDoc`; (2) an event none of whose owner-matching stored
points scores above `0.9` creates a new `FeedbackDoc` (and query point)
under the content-addressed id derived from
`(collectionId, ownerId, query)`. -/
theorem feedback_merge_behaviour :
    (∀ (emb : String → List ℝ) (md5hex : String → String) (e1 e2 : FeedbackEvent),
      e1.query ≠ "" → e1.ownerId ≠ "" →
      e2.ownerId = e1.ownerId → e2.collectionId = e1.collectionId →
      (0.9 : ℝ) < cosineSim (emb e2.query) (emb e1.query) →
      processFeedback emb md5hex e1 ⟨[], []⟩ = some (firstFeedbackState emb md5hex e1) ∧
      processFeedback emb md5hex e2 (firstFeedbackState emb md5hex e1) =
        some ⟨(firstFeedbackState emb md5hex e1).points,
          [⟨contentFeedbackId md5hex e1, e1.collectionId, e1.query, e1.ownerId,
            addFeedbackHits (firstFeedbackDoc md5hex e1).hits
              e2.chunkId e2.resourceId e2.action⟩]⟩) ∧
    (∀ (emb : String → List ℝ) (md5hex : String → String) (e : FeedbackEvent)
      (s : FeedbackState),
      e.query ≠ "" →
      (∀ p ∈ s.points, p.ownerId = jsOrPublic e.ownerId →
        cosineSim (emb e.query) p.dense ≤ 0.9) →
      (∀ d ∈ s.docs, d.docId ≠ contentFeedbackId md5hex e) →
      processFeedback emb md5hex e s =
        some ⟨s.points ++ [⟨contentFeedbackId md5hex e, emb e.query, e.ownerId⟩],
          s.docs ++ [firstFeedbackDoc md5hex e]⟩) := by
  have hgeneral : ∀ (emb : String → List ℝ) (md5hex : String → String) (e : FeedbackEvent)
      (s : FeedbackState),
      e.query ≠ "" →
      (∀ p ∈ s.points, p.ownerId = jsOrPublic e.ownerId →
        cosineSim (emb e.query) p.dense ≤ 0.9) →
      (∀ d ∈ s.docs, d.docId ≠ contentFeedbackId md5hex e) →
      processFeedback emb md5hex e s =
        some ⟨s.points ++ [⟨contentFeedbackId md5hex e, emb e.query, e.ownerId⟩],
          s.docs ++ [firstFeedbackDoc md5hex e]⟩ := by
    intro emb md5hex e s hq hfar hfresh
    have hbound : ∀ id sc,
        denseSearchTop s.points (emb e.query) (jsOrPublic e.ownerId) = some (id, sc) →
          sc ≤ 0.9 := by
      intro id sc h
      refine searchFold_le (emb e.query) _ none (by intro _ _ h'; cases h') ?_ id sc h
      intro p hp
      exact hfar p (List.mem_filter.mp hp).1 (by simpa using (List.mem_filter.mp hp).2)
    rw [processFeedback]
    have hfid : (match denseSearchTop s.points (emb e.query) (jsOrPublic e.ownerId) with
        | some (id, score) => if (0.9 : ℝ) < score then some id else none
        | none => none) = (none : Option String) := by
      match hres : denseSearchTop s.points (emb e.query) (jsOrPublic e.ownerId) with
      | none => rfl
      | some (id, score) =>
        have := hbound id score hres
        simp only [if_neg (not_lt.mpr this)]
    rw [hfid, Option.none_bind]
    show processFeedbackMiss emb md5hex e s = _
    rw [processFeedbackMiss, generateContentId_of_ne md5hex e hq]
    show some (⟨s.points ++ [⟨contentFeedbackId md5hex e, emb e.query, e.ownerId⟩],
      updateDoc (s.docs ++ [firstDocBefore md5hex e]) (contentFeedbackId md5hex e)
        e.chunkId e.resourceId e.action⟩ : FeedbackState) = _
    rw [show contentFeedbackId md5hex e = (firstDocBefore md5hex e).docId from rfl,
      updateDoc_append_fresh s.docs (firstDocBefore md5hex e)
        e.chunkId e.resourceId e.action hfresh]
    rfl
  refine ⟨?_, hgeneral⟩
  intro emb md5hex e1 e2 hq1 ho1 ho2 _ hcos
  have howner2 : jsOrPublic e2.ownerId = e1.ownerId := by
    rw [ho2, jsOrPublic, if_neg ho1]
  have hfirst : processFeedback emb md5hex e1 ⟨[], []⟩ =
      some (firstFeedbackState emb md5hex e1) := by
    have h := hgeneral emb md5hex e1 ⟨[], []⟩ hq1
      (by intro p hp; cases hp) (by intro d hd; cases hd)
    rw [h]
    rfl
  refine ⟨hfirst, ?_⟩
  rw [processFeedback]
  have hsearch : denseSearchTop (firstFeedbackState emb md5hex e1).points (emb e2.query)
      (jsOrPublic e2.ownerId) =
        some (contentFeedbackId md5hex e1, cosineSim (emb e2.query) (emb e1.query)) := by
    rw [denseSearchTop]
    have hkeep : ((firstFeedbackState emb md5hex e1).points.filter
        (fun p => p.ownerId = jsOrPublic e2.ownerId)) =
          (firstFeedbackState emb md5hex e1).points := by
      rw [firstFeedbackState, List.filter_cons]
      simp only [howner2]
      rw [if_pos (by simp)]
      rfl
    rw [hkeep]
    rfl
  rw [hsearch]
  simp only [if_pos hcos, Option.some_bind]
  have hfindDoc : findDoc (firstFeedbackState emb md5hex e1).docs
      (contentFeedbackId md5hex e1) = some (firstFeedbackDoc md5hex e1) := by
    rw [firstFeedbackState, findDoc]
    exact List.find?_cons_of_pos _ (by simp [firstFeedbackDoc])
  rw [hfindDoc]
  show some (⟨(firstFeedbackState emb md5hex e1).points,
    updateDoc (firstFeedbackState emb md5hex e1).docs (firstFeedbackDoc md5hex e1).docId
      e2.chunkId e2.resourceId e2.action⟩ : FeedbackState) = _
  have hupd : updateDoc (firstFeedbackState emb md5hex e1).docs
      (firstFeedbackDoc md5hex e1).docId e2.chunkId e2.resourceId e2.action =
        [⟨contentFeedbackId md5hex e1, e1.collectionId, e1.query, e1.ownerId,
          addFeedbackHits (firstFeedbackDoc md5hex e1).hits
            e2.chunkId e2.resourceId e2.action⟩] := by
    have h := updateDoc_append_fresh [] (firstFeedbackDoc md5hex e1)
      e2.chunkId e2.resourceId e2.action (by intro d hd; cases hd)
    rw [List.nil_append] at h
    rw [firstFeedbackState]
    show updateDoc [firstFeedbackDoc md5hex e1] (firstFeedbackDoc md5hex e1).docId
      e2.chunkId e2.resourceId e2.action = _
    rw [h, List.nil_append]
    rfl
  rw [hupd]

/-- A model server sending every query to the same unit vector. -/
noncomputable def constEmb : String → List ℝ :=
  fun _ => [1]

/-- A concrete first feedback event. -/
def fbEvent1 : FeedbackEvent :=
  ⟨"what is rag", "chunkA", "resA", FeedbackAction.upvote, "colX", "ownerX"⟩

/-- A concrete second feedback event by the same owner on the same
collection. -/
def fbEvent2 : FeedbackEvent :=
  ⟨"what is rag exactly", "chunkB", "resB", FeedbackAction.downvote, "colX", "ownerX"⟩

theorem cosineSim_single_one : cosineSim [(1 : ℝ)] [(1 : ℝ)] = 1 := by
  have hsq : l2normSq [(1 : ℝ)] = 1 := by
    rw [l2normSq]
    norm_num
  rw [cosineSim]
  rw [if_neg (by norm_num)]
  simp only [hsq, Real.sqrt_one, mul_one]
  rw [if_neg (by norm_num)]
  norm_num

theorem feedback_merge_behaviour_witness :
    ((0.9 : ℝ) < cosineSim (constEmb fbEvent2.query) (constEmb fbEvent1.query)) ∧
    processFeedback constEmb witnessHash fbEvent1 ⟨[], []⟩ =
      some (firstFeedbackState constEmb witnessHash fbEvent1) ∧
    processFeedback constEmb witnessHash fbEvent2
        (firstFeedbackState constEmb witnessHash fbEvent1) =
      some ⟨(firstFeedbackState constEmb witnessHash fbEvent1).points,
        [⟨contentFeedbackId witnessHash fbEvent1, fbEvent1.collectionId, fbEvent1.query,
          fbEvent1.ownerId,
          addFeedbackHits (firstFeedbackDoc witnessHash fbEvent1).hits
            fbEvent2.chunkId fbEvent2.resourceId fbEvent2.action⟩]⟩ := by
  have hcos : (0.9 : ℝ) < cosineSim (constEmb fbEvent2.query) (constEmb fbEvent1.query) := by
    show (0.9 : ℝ) < cosineSim [1] [1]
    rw [cosineSim_single_one]
    norm_num
  have h := feedback_merge_behaviour.1 constEmb witnessHash fbEvent1 fbEvent2
    (by decide) (by decide) rfl rfl hcos
  exact ⟨hcos, h.1, h.2⟩

end Hippocampus
